import Mathlib

/-!
Shallow embedding of the transitive group-membership resolver of the Google
connector (src/connector/google/google.go) and proofs about it.

The directory service is modelled as a finite table from member keys to the
list of result pages the paginated `Groups.List` call serves for that member,
plus a finite set of (member, pageIndex) calls that fail.  Page tokens are
modelled as `Nat`: token 0 is the empty token (first request / no more pages),
and the token for page `i` of a member with `n` pages is `i` with successor
token `i+1` when `i+1 < n` and the empty token `0` otherwise.

Go's unbounded recursion in `getGroups` is embedded with a fuel parameter that
bounds only the nesting depth of recursive `getGroups` calls (one unit per
nested member expansion); the pagination loop and the per-page member loop are
structural.  Termination of the Go code corresponds to the theorem that fuel
`|universe| + 1` is never exhausted.
-/

namespace DexGoogle

/-- Errors of the embedded resolver: a failed directory call (which in Go also
covers context cancellation surfacing from the call), or fuel exhaustion,
which is an artefact of the embedding only. -/
inductive GErr where
  | dirFailed : GErr
  | outOfFuel : GErr
deriving DecidableEq

/-- The visited set (`checkedGroups *sync.Map` in Go), as the list of group
emails inserted so far, newest first. -/
abbrev Visited := List String

/-- Result of one (sequential) expansion: the groups appended to `userGroups`
together with the visited set after the call, or an error. -/
abbrev ExpandRes := Except GErr (List String × Visited)

/-- A fixed directory state: `entries` maps a member key to the pages of
direct groups the paginated list call returns for it (a missing key serves a
single empty page), and `failures` is the set of (memberKey, pageIndex) calls
that return an error. -/
structure Directory where
  entries : List (String × List (List String))
  failures : List (String × Nat)

/-- Table lookup for the pages of a member key. -/
def findPages : List (String × List (List String)) → String → List (List String)
  | [], _ => []
  | (k, ps) :: rest, e => if k = e then ps else findPages rest e

/-- Pages of direct groups the directory serves for member `e`. -/
def Directory.pagesOf (d : Directory) (e : String) : List (List String) :=
  findPages d.entries e

/-- Whether the list call for member `e` at page token `t` fails. -/
def Directory.fails (d : Directory) (e : String) (t : Nat) : Bool :=
  d.failures.contains (e, t)

/-- The directory client: `Groups.List().UserKey(e).PageToken(t).Do()`.
Returns the groups of the requested page and the next page token (0 = empty
token = no more pages). -/
def Directory.listGroups (d : Directory) (e : String) (t : Nat) :
    Except GErr (List String × Nat) :=
  if d.fails e t then .error .dirFailed
  else .ok ((d.pagesOf e).getD t [],
            if t + 1 < (d.pagesOf e).length then t + 1 else 0)

/-- All direct groups of member `e` (the union of all pages, in page order). -/
def Directory.groupsOf (d : Directory) (e : String) : List String :=
  (d.pagesOf e).flatten

/-- The inner `for _, group := range groupsList.Groups` loop of `getGroups`:
for each group, `LoadOrStore` on the visited set skips already-present groups;
a fresh group is appended to the output and, when `transitive` is set,
expanded recursively through `recur` (the recursive `getGroups` call), whose
output is appended as well.  `recur` abstracts the recursive call so that the
definition is structural in `gs`. -/
def expandListF (recur : String → Visited → ExpandRes) (transitive : Bool) :
    List String → Visited → ExpandRes
  | [], visited => .ok ([], visited)
  | g :: rest, visited =>
    if g ∈ visited then
      expandListF recur transitive rest visited
    else if transitive then
      match recur g (g :: visited) with
      | .error e => .error e
      | .ok (tg, v2) =>
        match expandListF recur transitive rest v2 with
        | .error e => .error e
        | .ok (out, v3) => .ok (g :: (tg ++ out), v3)
    else
      match expandListF recur transitive rest (g :: visited) with
      | .error e => .error e
      | .ok (out, v3) => .ok (g :: out, v3)

/-- The pagination loop of `getGroups`: call the directory client with the
current token, abort on error, process the returned page, and continue with
the returned token unless it is the empty token.  `rem` is a structural
recursion budget for the loop (an embedding artefact): callers pass the
member's page count, which provably keeps the `outOfFuel` branch unreachable
(the loop only continues while the next token is a further page index). -/
def expandPagesF (recur : String → Visited → ExpandRes) (transitive : Bool)
    (d : Directory) (email : String) :
    Nat → Nat → Visited → ExpandRes
  | rem, token, visited =>
    match d.listGroups email token with
    | .error e => .error e
    | .ok (page, next) =>
      match expandListF recur transitive page visited with
      | .error e => .error e
      | .ok (out, v1) =>
        if next = 0 then .ok (out, v1)
        else
          match rem with
          | 0 => .error .outOfFuel
          | rem' + 1 =>
            match expandPagesF recur transitive d email rem' next v1 with
            | .error e => .error e
            | .ok (out2, v2) => .ok (out ++ out2, v2)

/-- `getGroups` of the Go source: the sequential expander for one member key,
with `fuel` bounding the nesting depth of recursive member expansions (an
embedding artefact; see the fuel-sufficiency theorem).  The pagination loop
starts at the empty token (token 0). -/
def getGroups (d : Directory) (transitive : Bool) : Nat → String → Visited → ExpandRes
  | 0, _, _ => .error .outOfFuel
  | fuel + 1, email, visited =>
    expandPagesF (fun e v => getGroups d transitive fuel e v) transitive d email
      (d.pagesOf email).length 0 visited

/-- The fan-out seeds of `getAllGroups`: the groups returned by its first,
single (unpaginated) `Groups.List` call for the root member, i.e. the first
page only. -/
def seedsOf (d : Directory) (root : String) : List String :=
  (d.pagesOf root).getD 0 []

/-- The workers of `getAllGroups`, sequentialised: each worker runs the
transitive `getGroups` for its seed against the shared visited set, then
appends its own seed to its output stream; the collector accumulates the
streams.  The true execution interleaves workers; this embedding runs them
atomically in list order (theorems quantify over the order), which preserves
the set of delivered groups since the visited set is the only shared state. -/
def runWorkers (fuel : Nat) (d : Directory) :
    List String → List String → Visited → Except GErr (List String)
  | [], acc, _ => .ok acc
  | s :: rest, acc, visited =>
    match getGroups d true fuel s visited with
    | .error e => .error e
    | .ok (childGroups, v') => runWorkers fuel d rest (acc ++ (childGroups ++ [s])) v'

/-- `getAllGroups` of the Go source with an explicit worker schedule `ws`
(the order in which the sequentialised workers run): one unpaginated list
call for the root, then one transitive worker per seed sharing a fresh
visited set. -/
def getAllGroupsSched (fuel : Nat) (d : Directory) (root : String)
    (ws : List String) : Except GErr (List String) :=
  match d.listGroups root 0 with
  | .error e => .error e
  | .ok _ => runWorkers fuel d ws [] []

/-- `getAllGroups` of the Go source, with workers run in seed order. -/
def getAllGroups (fuel : Nat) (d : Directory) (root : String) :
    Except GErr (List String) :=
  getAllGroupsSched fuel d root (seedsOf d root)

/-- Errors surfaced by the `createIdentity` groups logic. -/
inductive IdErr where
  | retrieveFailed : IdErr
  | notAuthorized : IdErr
deriving DecidableEq

/-- Modelled from the spec: `pkg_groups.Filter` (package `pkg/groups`, not
part of the staged sources) — the result "must be filtered to the
intersection" of the resolved groups with the configured allow-list. -/
def groupsFilter (gs allowed : List String) : List String :=
  gs.filter (fun g => allowed.contains g)

/-- The group-resolution dispatch inside `createIdentity`: transitive
resolution uses `getAllGroups`, otherwise `getGroups` with a fresh visited
set (and, since the same configuration flag drives recursion, no recursive
expansion). -/
def resolveGroups (transitive : Bool) (fuel : Nat) (d : Directory)
    (email : String) : Except GErr (List String) :=
  if transitive then getAllGroups fuel d email
  else
    match getGroups d false fuel email [] with
    | .error e => .error e
    | .ok (out, _) => .ok out

/-- The groups portion of `createIdentity`: groups are fetched only when the
caller requested the groups scope (`sGroups`) and a directory service client
was configured (`hasAdminSrv`); a non-empty allow-list filters the result,
and an empty filtered result is the not-authorized error. -/
def createIdentityGroups (sGroups hasAdminSrv transitive : Bool)
    (allow : List String) (fuel : Nat) (d : Directory) (email : String) :
    Except IdErr (List String) :=
  if sGroups && hasAdminSrv then
    match resolveGroups transitive fuel d email with
    | .error _ => .error .retrieveFailed
    | .ok gs =>
      if 0 < allow.length then
        let fgs := groupsFilter gs allow
        if fgs.length = 0 then .error .notAuthorized else .ok fgs
      else .ok gs
  else .ok []

/-- `Reaches d m g`: group `g` is reachable from member `m` through one or
more direct-membership edges (`x` lists `y` among its direct groups). -/
inductive Reaches (d : Directory) : String → String → Prop
  | single {m g : String} : g ∈ d.groupsOf m → Reaches d m g
  | head {m b g : String} : b ∈ d.groupsOf m → Reaches d b g → Reaches d m g

/-- Reachability through one or more edges all of whose targets avoid the
visited set `v`. -/
inductive ReachesAvoid (d : Directory) (v : Visited) : String → String → Prop
  | single {m g : String} : g ∈ d.groupsOf m → g ∉ v → ReachesAvoid d v m g
  | head {m b g : String} : b ∈ d.groupsOf m → b ∉ v → ReachesAvoid d v b g →
      ReachesAvoid d v m g

/-- Every group email the directory can ever list (the union of all pages of
all entries): the finite universe bounding the traversal. -/
def Directory.univFinset (d : Directory) : Finset String :=
  ((d.entries.map (fun p => p.2.flatten)).flatten).toFinset

/-- How many groups of the universe are not yet visited: the measure that
shrinks at every nested `getGroups` recursion. -/
def unvisitedCount (d : Directory) (v : Visited) : Nat :=
  (d.univFinset.filter (fun g => g ∉ v)).card

/-- Fuel that is provably never exhausted from an empty visited set. -/
def enoughFuel (d : Directory) : Nat :=
  d.univFinset.card + 1

/-- The groups listed on pages `t, t+1, …` of a page list. -/
def flattenFrom (ps : List (List String)) (t : Nat) : List String :=
  (ps.drop t).flatten

/-- Invariants of one member expansion: the visited set grows by exactly the
output (inserted in output order, so newest first), the output has no
duplicates, and no output group was visited before the call. -/
def GoodStep (f : String → Visited → ExpandRes) : Prop :=
  ∀ e v out v', f e v = .ok (out, v') →
    v' = out.reverse ++ v ∧ out.Nodup ∧ ∀ a ∈ out, a ∉ v

/-- Soundness of one member expansion: every output group is reachable from
the expanded member. -/
def SoundStep (d : Directory) (f : String → Visited → ExpandRes) : Prop :=
  ∀ e v out v', f e v = .ok (out, v') → ∀ a ∈ out, Reaches d e a

/-- Closure of one member expansion: all direct groups of every output group,
and of the expanded member itself, end up visited. -/
def ClosedStep (d : Directory) (f : String → Visited → ExpandRes) : Prop :=
  ∀ e v out v', f e v = .ok (out, v') →
    (∀ m ∈ out, ∀ x ∈ d.groupsOf m, x ∈ v') ∧ ∀ x ∈ d.groupsOf e, x ∈ v'

/-- All directory calls the pagination loop issues for member `e` succeed:
the initial empty-token call, and the call for every further page index.
Inverting a successful expansion through this predicate shows no failed call
can be swallowed. -/
def CallsOk (d : Directory) (e : String) : Prop :=
  d.fails e 0 = false ∧ ∀ tok < (d.pagesOf e).length, d.fails e tok = false

/-- A cyclic multi-parent directory: root → A, A → {B, A} (self-loop),
B → {A, C} (cycle back to A). -/
def dCycle : Directory :=
  ⟨[("root", [["A"]]), ("A", [["B", "A"]]), ("B", [["A", "C"]]), ("C", [[]])], []⟩

/-- The root's direct groups span two pages. -/
def dPages : Directory :=
  ⟨[("root", [["A"], ["B"]]), ("A", []), ("B", [])], []⟩

/-- Seed B is also reachable through seed A's subtree. -/
def dSeedDup : Directory :=
  ⟨[("root", [["A", "B"]]), ("A", [["B"]]), ("B", [[]])], []⟩

/-- The diamond: root → {A, B}, A → C, B → C. -/
def dDiamond : Directory :=
  ⟨[("root", [["A", "B"]]), ("A", [["C"]]), ("B", [["C"]]), ("C", [[]])], []⟩

/-- A member whose groups span three pages with an empty middle page. -/
def dMid : Directory :=
  ⟨[("m", [["A"], [], ["B"]])], []⟩

/-- Worker A discovers G1, worker B's directory call fails. -/
def dFailB : Directory :=
  ⟨[("root", [["A", "B"]]), ("A", [["G1"]]), ("G1", [[]]), ("B", [[]])], [("B", 0)]⟩

/-- Page one of the root discovers A (expanded successfully), then the call
for the root's second page fails mid-pagination. -/
def dFailSeq : Directory :=
  ⟨[("root", [["A"], ["B"]]), ("A", [[]])], [("root", 1)]⟩

/-- The root's page discovers A, but the nested recursive call for A fails. -/
def dFailNested : Directory :=
  ⟨[("root", [["A"]])], [("A", 0)]⟩

/-- The root belongs to groups A, B, C. -/
def dABC : Directory :=
  ⟨[("root", [["A", "B", "C"]])], []⟩

/-- The root belongs to groups A and C only. -/
def dAC : Directory :=
  ⟨[("root", [["A", "C"]])], []⟩

/-- The same group appears on two pages of the same member. -/
def dDup : Directory :=
  ⟨[("root", [["A"], ["A"]])], []⟩

/-- The very first directory call fails. -/
def dFail : Directory :=
  ⟨[], [("r", 0)]⟩

/-! Basic lemmas about the directory model. -/

theorem fails_eq_false {d : Directory} (hfail : d.failures = []) (e : String) (t : Nat) :
    d.fails e t = false := by
  simp [Directory.fails, hfail]

theorem listGroups_of_no_failures {d : Directory} (hfail : d.failures = [])
    (e : String) (t : Nat) :
    d.listGroups e t = .ok ((d.pagesOf e).getD t [],
      if t + 1 < (d.pagesOf e).length then t + 1 else 0) := by
  simp [Directory.listGroups, fails_eq_false hfail]

theorem mem_getD_flatten {ps : List (List String)} {t : Nat} {a : String}
    (h : a ∈ ps.getD t []) : a ∈ ps.flatten := by
  rcases lt_or_le t ps.length with hlt | hle
  · rw [List.getD_eq_getElem ps [] hlt] at h
    exact List.mem_flatten.mpr ⟨ps[t], List.getElem_mem hlt, h⟩
  · rw [List.getD_eq_default ps [] hle] at h
    exact absurd h (List.not_mem_nil a)

theorem mem_groupsOf_of_mem_page {d : Directory} {e : String} {t : Nat} {a : String}
    (h : a ∈ (d.pagesOf e).getD t []) : a ∈ d.groupsOf e :=
  mem_getD_flatten h

theorem findPages_flatten_sub {l : List (String × List (List String))} {e a : String}
    (h : a ∈ (findPages l e).flatten) :
    a ∈ (l.map (fun p => p.2.flatten)).flatten := by
  induction l with
  | nil => simp [findPages] at h
  | cons p rest ih =>
    obtain ⟨k, ps⟩ := p
    simp only [findPages] at h
    by_cases hk : k = e
    · rw [if_pos hk] at h
      simp only [List.map_cons, List.flatten_cons, List.mem_append]
      exact Or.inl h
    · rw [if_neg hk] at h
      simp only [List.map_cons, List.flatten_cons, List.mem_append]
      exact Or.inr (ih h)

theorem mem_univ_of_mem_groupsOf {d : Directory} {e a : String}
    (h : a ∈ d.groupsOf e) : a ∈ d.univFinset := by
  unfold Directory.groupsOf Directory.pagesOf at h
  unfold Directory.univFinset
  exact List.mem_toFinset.mpr (findPages_flatten_sub h)

theorem unvisitedCount_le_of_subset {d : Directory} {v w : Visited} (h : v ⊆ w) :
    unvisitedCount d w ≤ unvisitedCount d v := by
  apply Finset.card_le_card
  intro x hx
  simp only [Finset.mem_filter] at hx ⊢
  exact ⟨hx.1, fun hv => hx.2 (h hv)⟩

theorem unvisitedCount_cons_lt {d : Directory} {v : Visited} {g : String}
    (hg : g ∈ d.univFinset) (hnv : g ∉ v) :
    unvisitedCount d (g :: v) < unvisitedCount d v := by
  apply Finset.card_lt_card
  rw [Finset.ssubset_iff_of_subset]
  · exact ⟨g, Finset.mem_filter.mpr ⟨hg, hnv⟩, by simp⟩
  · intro x hx
    simp only [Finset.mem_filter, List.mem_cons] at hx ⊢
    exact ⟨hx.1, fun h => hx.2 (Or.inr h)⟩

theorem unvisitedCount_lt_enoughFuel (d : Directory) (v : Visited) :
    unvisitedCount d v < enoughFuel d :=
  Nat.lt_succ_of_le (Finset.card_filter_le _ _)

/-! Shape lemmas: visited-set evolution, no duplicates, freshness. -/

theorem mem_after {out : List String} {v v' : Visited}
    (h : v' = out.reverse ++ v) {a : String} (ha : a ∈ out) : a ∈ v' := by
  subst h
  exact List.mem_append.mpr (Or.inl (List.mem_reverse.mpr ha))

theorem subset_after {out : List String} {v v' : Visited}
    (h : v' = out.reverse ++ v) : v ⊆ v' := by
  subst h
  intro a ha
  exact List.mem_append.mpr (Or.inr ha)

theorem mem_after_iff {out : List String} {v v' : Visited}
    (h : v' = out.reverse ++ v) (a : String) : a ∈ v' ↔ a ∈ out ∨ a ∈ v := by
  subst h
  simp [List.mem_append, List.mem_reverse]

theorem shape_list {recur : String → Visited → ExpandRes} {t : Bool}
    (hrec : GoodStep recur) :
    ∀ gs v out v', expandListF recur t gs v = .ok (out, v') →
      v' = out.reverse ++ v ∧ out.Nodup ∧ ∀ a ∈ out, a ∉ v := by
  intro gs v
  induction gs, v using expandListF.induct recur t with
  | case1 v =>
    intro out v' h
    simp only [expandListF, Except.ok.injEq, Prod.mk.injEq] at h
    obtain ⟨h1, h2⟩ := h
    subst h1; subst h2
    simp
  | case2 g rest v hmem ih =>
    intro out v' h
    simp only [expandListF, if_pos hmem] at h
    obtain ⟨hv, hnd, hfresh⟩ := ih out v' h
    exact ⟨hv, hnd, hfresh⟩
  | case3 g rest v hnmem ht e herr =>
    intro out v' h
    subst ht
    simp [expandListF, hnmem, herr] at h
  | case4 g rest v hnmem ht tg v2 hok e herr ih =>
    intro out v' h
    subst ht
    simp [expandListF, hnmem, hok, herr] at h
  | case5 g rest v hnmem ht tg v2 hok outr v3 hokr ih =>
    intro out v' h
    subst ht
    simp only [expandListF, if_neg hnmem, if_true, hok, hokr,
      Except.ok.injEq, Prod.mk.injEq] at h
    obtain ⟨h1, h2⟩ := h
    subst h1; subst h2
    obtain ⟨hv2, hndtg, hfreshtg⟩ := hrec g (g :: v) tg v2 hok
    obtain ⟨hv3, hndr, hfreshr⟩ := ih outr v3 hokr
    have hsubv2 : (g :: v) ⊆ v2 := subset_after hv2
    have hgv2 : g ∈ v2 := hsubv2 (List.mem_cons_self g v)
    have hsubvv2 : v ⊆ v2 := fun a ha => hsubv2 (List.mem_cons_of_mem g ha)
    refine ⟨?_, ?_, ?_⟩
    · rw [hv3, hv2]
      simp [List.reverse_append, List.append_assoc]
    · rw [List.nodup_cons]
      constructor
      · intro hmem
        rcases List.mem_append.mp hmem with hgtg | hgout
        · exact hfreshtg g hgtg (List.mem_cons_self g v)
        · exact hfreshr g hgout hgv2
      · rw [List.nodup_append]
        refine ⟨hndtg, hndr, ?_⟩
        intro a hatg haout
        exact hfreshr a haout (mem_after hv2 hatg)
    · intro a ha
      rcases List.mem_cons.mp ha with rfl | ha'
      · exact hnmem
      · rcases List.mem_append.mp ha' with hatg | haout
        · intro hav
          exact hfreshtg a hatg (List.mem_cons_of_mem g hav)
        · intro hav
          exact hfreshr a haout (hsubvv2 hav)
  | case6 g rest v hnmem ht e herr ih =>
    intro out v' h
    simp only [Bool.not_eq_true] at ht
    subst ht
    simp [expandListF, hnmem, herr] at h
  | case7 g rest v hnmem ht outr v3 hokr ih =>
    intro out v' h
    simp only [Bool.not_eq_true] at ht
    subst ht
    simp only [expandListF, if_neg hnmem, Bool.false_eq_true, if_false, hokr,
      Except.ok.injEq, Prod.mk.injEq] at h
    obtain ⟨h1, h2⟩ := h
    subst h1; subst h2
    obtain ⟨hv3, hndr, hfreshr⟩ := ih outr v3 hokr
    refine ⟨?_, ?_, ?_⟩
    · rw [hv3]
      simp [List.append_assoc]
    · rw [List.nodup_cons]
      exact ⟨fun hmem => hfreshr g hmem (List.mem_cons_self g v), hndr⟩
    · intro a ha
      rcases List.mem_cons.mp ha with rfl | ha'
      · exact hnmem
      · intro hav
        exact hfreshr a ha' (List.mem_cons_of_mem g hav)

theorem listGroups_ok_inv {d : Directory} {e : String} {token : Nat}
    {page : List String} {next : Nat}
    (h : d.listGroups e token = .ok (page, next)) :
    page = (d.pagesOf e).getD token [] ∧
      ((next = 0 ∧ (d.pagesOf e).length ≤ token + 1) ∨
        (next = token + 1 ∧ token + 1 < (d.pagesOf e).length)) := by
  simp only [Directory.listGroups] at h
  split at h
  · exact absurd h (by simp)
  · simp only [Except.ok.injEq, Prod.mk.injEq] at h
    obtain ⟨hp, hn⟩ := h
    by_cases hlt : token + 1 < (d.pagesOf e).length
    · rw [if_pos hlt] at hn
      exact ⟨hp.symm, Or.inr ⟨hn.symm, hlt⟩⟩
    · rw [if_neg hlt] at hn
      exact ⟨hp.symm, Or.inl ⟨hn.symm, by omega⟩⟩

theorem flattenFrom_zero (ps : List (List String)) : flattenFrom ps 0 = ps.flatten := by
  simp [flattenFrom]

theorem flattenFrom_last {ps : List (List String)} {t : Nat} (h : ps.length ≤ t + 1) :
    flattenFrom ps t = ps.getD t [] := by
  rcases lt_or_le t ps.length with hlt | hle
  · unfold flattenFrom
    rw [List.drop_eq_getElem_cons hlt, List.drop_eq_nil_of_le h,
      List.getD_eq_getElem ps [] hlt]
    simp
  · unfold flattenFrom
    rw [List.drop_eq_nil_of_le hle, List.getD_eq_default ps [] hle]
    simp

theorem flattenFrom_step {ps : List (List String)} {t : Nat} (h : t + 1 < ps.length) :
    flattenFrom ps t = ps.getD t [] ++ flattenFrom ps (t + 1) := by
  unfold flattenFrom
  rw [List.drop_eq_getElem_cons (by omega : t < ps.length), List.flatten_cons,
    List.getD_eq_getElem ps [] (by omega)]

theorem shape_pages {recur : String → Visited → ExpandRes} {t : Bool}
    {d : Directory} {email : String} (hrec : GoodStep recur) :
    ∀ rem token v out v', expandPagesF recur t d email rem token v = .ok (out, v') →
      v' = out.reverse ++ v ∧ out.Nodup ∧ ∀ a ∈ out, a ∉ v := by
  intro rem token v
  induction rem, token, v using expandPagesF.induct recur t d email with
  | case1 rem token v e herr =>
    intro out v' h
    rw [expandPagesF.eq_1, herr] at h
    simp at h
  | case2 rem token v page next hlg e herr =>
    intro out v' h
    rw [expandPagesF.eq_1] at h
    simp [hlg, herr] at h
  | case3 rem token v page outp v1 hlist hlg =>
    intro out v' h
    rw [expandPagesF.eq_1] at h
    simp [hlg, hlist] at h
    obtain ⟨rfl, rfl⟩ := h
    exact shape_list hrec page v _ _ hlist
  | case4 token v page next hlg outp v1 hlist hnz =>
    intro out v' h
    rw [expandPagesF.eq_1] at h
    simp [hlg, hlist, hnz] at h
  | case5 token v page next hlg outp v1 hlist hnz rem' e herr ih =>
    intro out v' h
    rw [expandPagesF.eq_1] at h
    simp [hlg, hlist, hnz, herr] at h
  | case6 token v page next hlg outp v1 hlist hnz rem' out2 v2 hrecur ih =>
    intro out v' h
    rw [expandPagesF.eq_1] at h
    simp only [hlg, hlist, if_neg hnz, hrecur, Except.ok.injEq, Prod.mk.injEq] at h
    obtain ⟨h1, h2⟩ := h
    subst h1; subst h2
    obtain ⟨hv1, hndp, hfreshp⟩ := shape_list hrec page v outp v1 hlist
    obtain ⟨hv2, hnd2, hfresh2⟩ := ih _ _ hrecur
    refine ⟨?_, ?_, ?_⟩
    · rw [hv2, hv1]
      simp [List.reverse_append, List.append_assoc]
    · rw [List.nodup_append]
      refine ⟨hndp, hnd2, ?_⟩
      intro a hap ha2
      exact hfresh2 a ha2 (mem_after hv1 hap)
    · intro a ha
      rcases List.mem_append.mp ha with hap | ha2
      · exact hfreshp a hap
      · intro hav
        exact hfresh2 a ha2 (subset_after hv1 hav)

theorem goodStep_getGroups (d : Directory) (t : Bool) :
    ∀ fuel, GoodStep (getGroups d t fuel) := by
  intro fuel
  induction fuel with
  | zero =>
    intro e v out v' h
    simp [getGroups] at h
  | succ n ih =>
    intro e v out v' h
    simp only [getGroups] at h
    exact shape_pages ih _ _ _ out v' h

theorem cover_list {recur : String → Visited → ExpandRes} {t : Bool}
    (hrec : GoodStep recur) :
    ∀ gs v out v', expandListF recur t gs v = .ok (out, v') → ∀ g ∈ gs, g ∈ v' := by
  intro gs v
  induction gs, v using expandListF.induct recur t with
  | case1 v =>
    intro out v' h g hg
    exact absurd hg (List.not_mem_nil g)
  | case2 g rest v hmem ih =>
    intro out v' h x hx
    simp only [expandListF, if_pos hmem] at h
    obtain ⟨hv, -, -⟩ := shape_list hrec rest v out v' h
    rcases List.mem_cons.mp hx with rfl | hx'
    · exact subset_after hv hmem
    · exact ih out v' h x hx'
  | case3 g rest v hnmem ht e herr =>
    intro out v' h
    subst ht
    simp [expandListF, hnmem, herr] at h
  | case4 g rest v hnmem ht tg v2 hok e herr ih =>
    intro out v' h
    subst ht
    simp [expandListF, hnmem, hok, herr] at h
  | case5 g rest v hnmem ht tg v2 hok outr v3 hokr ih =>
    intro out v' h x hx
    subst ht
    simp only [expandListF, if_neg hnmem, if_true, hok, hokr, Except.ok.injEq,
      Prod.mk.injEq] at h
    obtain ⟨h1, h2⟩ := h
    subst h2
    obtain ⟨hv2, -, -⟩ := hrec g (g :: v) tg v2 hok
    obtain ⟨hv3, -, -⟩ := shape_list hrec rest v2 _ _ hokr
    rcases List.mem_cons.mp hx with rfl | hx'
    · exact subset_after hv3 (subset_after hv2 (List.mem_cons_self x v))
    · exact ih _ _ hokr x hx'
  | case6 g rest v hnmem ht e herr ih =>
    intro out v' h
    simp only [Bool.not_eq_true] at ht
    subst ht
    simp [expandListF, hnmem, herr] at h
  | case7 g rest v hnmem ht outr v3 hokr ih =>
    intro out v' h x hx
    simp only [Bool.not_eq_true] at ht
    subst ht
    simp only [expandListF, if_neg hnmem, Bool.false_eq_true, if_false, hokr,
      Except.ok.injEq, Prod.mk.injEq] at h
    obtain ⟨h1, h2⟩ := h
    subst h2
    obtain ⟨hv3, -, -⟩ := shape_list hrec rest (g :: v) _ _ hokr
    rcases List.mem_cons.mp hx with rfl | hx'
    · exact subset_after hv3 (List.mem_cons_self x v)
    · exact ih _ _ hokr x hx'

theorem cover_pages {recur : String → Visited → ExpandRes} {t : Bool}
    {d : Directory} {email : String} (hrec : GoodStep recur) :
    ∀ rem token v out v', expandPagesF recur t d email rem token v = .ok (out, v') →
      ∀ g ∈ flattenFrom (d.pagesOf email) token, g ∈ v' := by
  intro rem token v
  induction rem, token, v using expandPagesF.induct recur t d email with
  | case1 rem token v e herr =>
    intro out v' h
    rw [expandPagesF.eq_1, herr] at h
    simp at h
  | case2 rem token v page next hlg e herr =>
    intro out v' h
    rw [expandPagesF.eq_1] at h
    simp [hlg, herr] at h
  | case3 rem token v page outp v1 hlist hlg =>
    intro out v' h g hg
    rw [expandPagesF.eq_1] at h
    simp [hlg, hlist] at h
    obtain ⟨rfl, rfl⟩ := h
    obtain ⟨hp, hcase⟩ := listGroups_ok_inv hlg
    rcases hcase with ⟨-, hlen⟩ | ⟨hnx, -⟩
    · rw [flattenFrom_last hlen, ← hp] at hg
      exact cover_list hrec page v _ _ hlist g hg
    · exact absurd hnx.symm (by omega)
  | case4 token v page next hlg outp v1 hlist hnz =>
    intro out v' h
    rw [expandPagesF.eq_1] at h
    simp [hlg, hlist, hnz] at h
  | case5 token v page next hlg outp v1 hlist hnz rem' e herr ih =>
    intro out v' h
    rw [expandPagesF.eq_1] at h
    simp [hlg, hlist, hnz, herr] at h
  | case6 token v page next hlg outp v1 hlist hnz rem' out2 v2 hrecur ih =>
    intro out v' h g hg
    rw [expandPagesF.eq_1] at h
    simp only [hlg, hlist, if_neg hnz, hrecur, Except.ok.injEq, Prod.mk.injEq] at h
    obtain ⟨h1, h2⟩ := h
    subst h2
    obtain ⟨hp, hcase⟩ := listGroups_ok_inv hlg
    rcases hcase with ⟨hz, -⟩ | ⟨hnx, hlt⟩
    · exact absurd hz hnz
    · subst hnx
      rw [flattenFrom_step hlt, ← hp] at hg
      obtain ⟨hv2, -, -⟩ := shape_pages hrec rem' (token + 1) v1 _ _ hrecur
      rcases List.mem_append.mp hg with hgp | hgrest
      · exact subset_after hv2 (cover_list hrec page v outp v1 hlist g hgp)
      · exact ih _ _ hrecur g hgrest

theorem cover_getGroups {d : Directory} {t : Bool} :
    ∀ fuel e v out v', getGroups d t fuel e v = .ok (out, v') →
      ∀ g ∈ d.groupsOf e, g ∈ v' := by
  intro fuel
  cases fuel with
  | zero =>
    intro e v out v' h
    simp [getGroups] at h
  | succ n =>
    intro e v out v' h g hg
    simp only [getGroups] at h
    refine cover_pages (goodStep_getGroups d t n) _ _ _ out v' h g ?_
    rw [flattenFrom_zero]
    exact hg

theorem sound_list {recur : String → Visited → ExpandRes} {t : Bool}
    {d : Directory} (hrec : SoundStep d recur) :
    ∀ gs v out v', expandListF recur t gs v = .ok (out, v') →
      ∀ a ∈ out, a ∈ gs ∨ ∃ b ∈ gs, Reaches d b a := by
  intro gs v
  induction gs, v using expandListF.induct recur t with
  | case1 v =>
    intro out v' h a ha
    simp only [expandListF, Except.ok.injEq, Prod.mk.injEq] at h
    obtain ⟨h1, h2⟩ := h
    subst h1
    exact absurd ha (List.not_mem_nil a)
  | case2 g rest v hmem ih =>
    intro out v' h a ha
    simp only [expandListF, if_pos hmem] at h
    rcases ih out v' h a ha with h1 | ⟨b, hb, hr⟩
    · exact Or.inl (List.mem_cons_of_mem g h1)
    · exact Or.inr ⟨b, List.mem_cons_of_mem g hb, hr⟩
  | case3 g rest v hnmem ht e herr =>
    intro out v' h
    subst ht
    simp [expandListF, hnmem, herr] at h
  | case4 g rest v hnmem ht tg v2 hok e herr ih =>
    intro out v' h
    subst ht
    simp [expandListF, hnmem, hok, herr] at h
  | case5 g rest v hnmem ht tg v2 hok outr v3 hokr ih =>
    intro out v' h a ha
    subst ht
    simp only [expandListF, if_neg hnmem, if_true, hok, hokr, Except.ok.injEq,
      Prod.mk.injEq] at h
    obtain ⟨h1, h2⟩ := h
    subst h1
    rcases List.mem_cons.mp ha with rfl | ha'
    · exact Or.inl (List.mem_cons_self a rest)
    · rcases List.mem_append.mp ha' with hatg | haout
      · exact Or.inr ⟨g, List.mem_cons_self g rest, hrec g (g :: v) tg v2 hok a hatg⟩
      · rcases ih outr v3 hokr a haout with h1 | ⟨b, hb, hr⟩
        · exact Or.inl (List.mem_cons_of_mem g h1)
        · exact Or.inr ⟨b, List.mem_cons_of_mem g hb, hr⟩
  | case6 g rest v hnmem ht e herr ih =>
    intro out v' h
    simp only [Bool.not_eq_true] at ht
    subst ht
    simp [expandListF, hnmem, herr] at h
  | case7 g rest v hnmem ht outr v3 hokr ih =>
    intro out v' h a ha
    simp only [Bool.not_eq_true] at ht
    subst ht
    simp only [expandListF, if_neg hnmem, Bool.false_eq_true, if_false, hokr,
      Except.ok.injEq, Prod.mk.injEq] at h
    obtain ⟨h1, h2⟩ := h
    subst h1
    rcases List.mem_cons.mp ha with rfl | ha'
    · exact Or.inl (List.mem_cons_self a rest)
    · rcases ih outr v3 hokr a ha' with h1 | ⟨b, hb, hr⟩
      · exact Or.inl (List.mem_cons_of_mem g h1)
      · exact Or.inr ⟨b, List.mem_cons_of_mem g hb, hr⟩

theorem sound_pages {recur : String → Visited → ExpandRes} {t : Bool}
    {d : Directory} {email : String} (hrec : SoundStep d recur) :
    ∀ rem token v out v', expandPagesF recur t d email rem token v = .ok (out, v') →
      ∀ a ∈ out, a ∈ flattenFrom (d.pagesOf email) token ∨
        ∃ b ∈ flattenFrom (d.pagesOf email) token, Reaches d b a := by
  intro rem token v
  induction rem, token, v using expandPagesF.induct recur t d email with
  | case1 rem token v e herr =>
    intro out v' h
    rw [expandPagesF.eq_1, herr] at h
    simp at h
  | case2 rem token v page next hlg e herr =>
    intro out v' h
    rw [expandPagesF.eq_1] at h
    simp [hlg, herr] at h
  | case3 rem token v page outp v1 hlist hlg =>
    intro out v' h a ha
    rw [expandPagesF.eq_1] at h
    simp [hlg, hlist] at h
    obtain ⟨rfl, rfl⟩ := h
    obtain ⟨hp, hcase⟩ := listGroups_ok_inv hlg
    rcases hcase with ⟨-, hlen⟩ | ⟨hnx, -⟩
    · rw [flattenFrom_last hlen, ← hp]
      exact sound_list hrec page v _ _ hlist a ha
    · exact absurd hnx.symm (by omega)
  | case4 token v page next hlg outp v1 hlist hnz =>
    intro out v' h
    rw [expandPagesF.eq_1] at h
    simp [hlg, hlist, hnz] at h
  | case5 token v page next hlg outp v1 hlist hnz rem' e herr ih =>
    intro out v' h
    rw [expandPagesF.eq_1] at h
    simp [hlg, hlist, hnz, herr] at h
  | case6 token v page next hlg outp v1 hlist hnz rem' out2 v2 hrecur ih =>
    intro out v' h a ha
    rw [expandPagesF.eq_1] at h
    simp only [hlg, hlist, if_neg hnz, hrecur, Except.ok.injEq, Prod.mk.injEq] at h
    obtain ⟨h1, h2⟩ := h
    subst h1
    obtain ⟨hp, hcase⟩ := listGroups_ok_inv hlg
    rcases hcase with ⟨hz, -⟩ | ⟨hnx, hlt⟩
    · exact absurd hz hnz
    · subst hnx
      rw [flattenFrom_step hlt, ← hp]
      rcases List.mem_append.mp ha with hap | ha2
      · rcases sound_list hrec page v outp v1 hlist a hap with h1 | ⟨b, hb, hr⟩
        · exact Or.inl (List.mem_append.mpr (Or.inl h1))
        · exact Or.inr ⟨b, List.mem_append.mpr (Or.inl hb), hr⟩
      · rcases ih _ _ hrecur a ha2 with h1 | ⟨b, hb, hr⟩
        · exact Or.inl (List.mem_append.mpr (Or.inr h1))
        · exact Or.inr ⟨b, List.mem_append.mpr (Or.inr hb), hr⟩

theorem sound_getGroups (d : Directory) (t : Bool) :
    ∀ fuel, SoundStep d (getGroups d t fuel) := by
  intro fuel
  induction fuel with
  | zero =>
    intro e v out v' h
    simp [getGroups] at h
  | succ n ih =>
    intro e v out v' h a ha
    simp only [getGroups] at h
    rcases sound_pages ih _ _ _ out v' h a ha with hmem | ⟨b, hb, hr⟩
    · exact Reaches.single (by rwa [flattenFrom_zero] at hmem)
    · exact Reaches.head (by rwa [flattenFrom_zero] at hb) hr

/-! Closure: in transitive mode, every visited group has been fully expanded,
so all its direct groups are visited too. -/

theorem closed_list {recur : String → Visited → ExpandRes} {d : Directory}
    (hrec : GoodStep recur) (hrecC : ClosedStep d recur) :
    ∀ gs v out v', expandListF recur true gs v = .ok (out, v') →
      ∀ m ∈ out, ∀ x ∈ d.groupsOf m, x ∈ v' := by
  intro gs v
  induction gs, v using expandListF.induct recur true with
  | case1 v =>
    intro out v' h m hm
    simp only [expandListF, Except.ok.injEq, Prod.mk.injEq] at h
    obtain ⟨rfl, rfl⟩ := h
    exact absurd hm (List.not_mem_nil m)
  | case2 g rest v hmem ih =>
    intro out v' h m hm x hx
    simp only [expandListF, if_pos hmem] at h
    exact ih _ _ h m hm x hx
  | case3 g rest v hnmem ht e herr =>
    intro out v' h
    simp [expandListF, hnmem, herr] at h
  | case4 g rest v hnmem ht tg v2 hok e herr ih =>
    intro out v' h
    simp [expandListF, hnmem, hok, herr] at h
  | case5 g rest v hnmem ht tg v2 hok outr v3 hokr ih =>
    intro out v' h m hm x hx
    simp [expandListF, hnmem, hok, hokr] at h
    obtain ⟨rfl, rfl⟩ := h
    obtain ⟨hv3, -, -⟩ := shape_list hrec rest v2 _ _ hokr
    rcases List.mem_cons.mp hm with rfl | hm'
    · exact subset_after hv3 ((hrecC m (m :: v) tg v2 hok).2 x hx)
    · rcases List.mem_append.mp hm' with hmtg | hmout
      · exact subset_after hv3 ((hrecC g (g :: v) tg v2 hok).1 m hmtg x hx)
      · exact ih _ _ hokr m hmout x hx
  | case6 g rest v hnmem ht e herr ih =>
    exact absurd rfl ht
  | case7 g rest v hnmem ht outr v3 hokr ih =>
    exact absurd rfl ht

theorem closed_pages {recur : String → Visited → ExpandRes} {d : Directory}
    {email : String} (hrec : GoodStep recur) (hrecC : ClosedStep d recur) :
    ∀ rem token v out v', expandPagesF recur true d email rem token v = .ok (out, v') →
      ∀ m ∈ out, ∀ x ∈ d.groupsOf m, x ∈ v' := by
  intro rem token v
  induction rem, token, v using expandPagesF.induct recur true d email with
  | case1 rem token v e herr =>
    intro out v' h
    rw [expandPagesF.eq_1] at h
    simp [herr] at h
  | case2 rem token v page next hlg e herr =>
    intro out v' h
    rw [expandPagesF.eq_1] at h
    simp [hlg, herr] at h
  | case3 rem token v page outp v1 hlist hlg =>
    intro out v' h m hm x hx
    rw [expandPagesF.eq_1] at h
    simp [hlg, hlist] at h
    obtain ⟨rfl, rfl⟩ := h
    exact closed_list hrec hrecC page v _ _ hlist m hm x hx
  | case4 token v page next hlg outp v1 hlist hnz =>
    intro out v' h
    rw [expandPagesF.eq_1] at h
    simp [hlg, hlist, hnz] at h
  | case5 token v page next hlg outp v1 hlist hnz rem' e herr ih =>
    intro out v' h
    rw [expandPagesF.eq_1] at h
    simp [hlg, hlist, hnz, herr] at h
  | case6 token v page next hlg outp v1 hlist hnz rem' out2 v2 hrecur ih =>
    intro out v' h m hm x hx
    rw [expandPagesF.eq_1] at h
    simp only [hlg, hlist, if_neg hnz, hrecur, Except.ok.injEq, Prod.mk.injEq] at h
    obtain ⟨rfl, rfl⟩ := h
    obtain ⟨hv2, -, -⟩ := shape_pages hrec rem' next v1 _ _ hrecur
    rcases List.mem_append.mp hm with hmp | hm2
    · exact subset_after hv2 (closed_list hrec hrecC page v _ _ hlist m hmp x hx)
    · exact ih _ _ hrecur m hm2 x hx

theorem closed_getGroups (d : Directory) :
    ∀ fuel, ClosedStep d (getGroups d true fuel) := by
  intro fuel
  induction fuel with
  | zero =>
    intro e v out v' h
    simp [getGroups] at h
  | succ n ih =>
    intro e v out v' h
    simp only [getGroups] at h
    constructor
    · exact fun m hm x hx =>
        closed_pages (goodStep_getGroups d true n) ih _ _ _ out v' h m hm x hx
    · intro x hx
      refine cover_pages (goodStep_getGroups d true n) _ _ _ out v' h x ?_
      rw [flattenFrom_zero]
      exact hx

/-! Completeness of one transitive expansion. -/

theorem complete_getGroups {d : Directory} {fuel : Nat} {s : String} {v : Visited}
    {out : List String} {v' : Visited}
    (h : getGroups d true fuel s v = .ok (out, v')) :
    ∀ y, ReachesAvoid d v s y → y ∈ out := by
  obtain ⟨hv', hnd, hfresh⟩ := goodStep_getGroups d true fuel s v out v' h
  obtain ⟨hclo, hcov⟩ := closed_getGroups d fuel s v out v' h
  have hmem_out : ∀ z, z ∈ v' → z ∉ v → z ∈ out := by
    intro z hz hnz
    rcases (mem_after_iff hv' z).mp hz with h1 | h2
    · exact h1
    · exact absurd h2 hnz
  have H : ∀ m y, ReachesAvoid d v m y → (m = s ∨ m ∈ out) → y ∈ out := by
    intro m y hy
    induction hy with
    | @single m g hg hnv =>
      intro hm
      rcases hm with rfl | hm'
      · exact hmem_out g (hcov g hg) hnv
      · exact hmem_out g (hclo m hm' g hg) hnv
    | @head m b g hb hnb hr ih =>
      intro hm
      have hbv : b ∈ v' := by
        rcases hm with rfl | hm'
        · exact hcov b hb
        · exact hclo m hm' b hb
      exact ih (Or.inr (hmem_out b hbv hnb))
  exact fun y hy => H s y hy (Or.inl rfl)

/-! Bridges between plain and avoiding reachability. -/

theorem reachesAvoid_nil_iff {d : Directory} {m y : String} :
    ReachesAvoid d [] m y ↔ Reaches d m y := by
  constructor
  · intro h
    induction h with
    | @single m g hg hnv => exact Reaches.single hg
    | @head m b g hb hnb hr ih => exact Reaches.head hb ih
  · intro h
    induction h with
    | @single m g hg => exact ReachesAvoid.single hg (List.not_mem_nil g)
    | @head m b g hb hr ih => exact ReachesAvoid.head hb (List.not_mem_nil b) ih

theorem reaches_of_mem_closed {d : Directory} {v : Visited}
    (hcl : ∀ m ∈ v, ∀ x ∈ d.groupsOf m, x ∈ v) {b y : String}
    (hr : Reaches d b y) : b ∈ v → y ∈ v := by
  induction hr with
  | @single m g hg => exact fun hm => hcl m hm g hg
  | @head m c g hc hr ih => exact fun hm => ih (hcl m hm c hc)

theorem reachesAvoid_of_closed {d : Directory} {v : Visited}
    (hcl : ∀ m ∈ v, ∀ x ∈ d.groupsOf m, x ∈ v) {s y : String}
    (hr : Reaches d s y) : y ∉ v → ReachesAvoid d v s y := by
  induction hr with
  | @single m g hg => exact fun hy => ReachesAvoid.single hg hy
  | @head m b g hb hr ih =>
    intro hy
    by_cases hbv : b ∈ v
    · exact absurd (reaches_of_mem_closed hcl hr hbv) hy
    · exact ReachesAvoid.head hb hbv (ih hy)

/-! Worker-level characterisation. -/

theorem worker_set {d : Directory} {fuel : Nat} {s : String} {v : Visited}
    {out : List String} {v' : Visited}
    (h : getGroups d true fuel s v = .ok (out, v'))
    (hcl : ∀ m ∈ v, ∀ x ∈ d.groupsOf m, x ∈ v) :
    ∀ y, y ∈ out ↔ (y ∉ v ∧ Reaches d s y) := by
  intro y
  constructor
  · intro hy
    obtain ⟨hv', hnd, hfresh⟩ := goodStep_getGroups d true fuel s v out v' h
    exact ⟨hfresh y hy, sound_getGroups d true fuel s v out v' h y hy⟩
  · rintro ⟨hnv, hr⟩
    exact complete_getGroups h y (reachesAvoid_of_closed hcl hr hnv)

theorem worker_closed {d : Directory} {fuel : Nat} {s : String} {v : Visited}
    {out : List String} {v' : Visited}
    (h : getGroups d true fuel s v = .ok (out, v'))
    (hcl : ∀ m ∈ v, ∀ x ∈ d.groupsOf m, x ∈ v) :
    ∀ m ∈ v', ∀ x ∈ d.groupsOf m, x ∈ v' := by
  obtain ⟨hv', -, -⟩ := goodStep_getGroups d true fuel s v out v' h
  intro m hm x hx
  rcases (mem_after_iff hv' m).mp hm with hmo | hmv
  · exact (closed_getGroups d fuel) s v out v' h |>.1 m hmo x hx
  · exact subset_after hv' (hcl m hmv x hx)

/-! Fuel sufficiency: with fuel exceeding the number of unvisited universe
elements, `getGroups` never exhausts its fuel (this is the termination
argument of the Go recursion). -/

theorem ok_list {recur : String → Visited → ExpandRes} {t : Bool} {d : Directory}
    {B : Nat} (hrec : GoodStep recur)
    (hok : ∀ e w, unvisitedCount d w < B → ∃ r w', recur e w = .ok (r, w')) :
    ∀ gs v, (∀ g ∈ gs, g ∈ d.univFinset) → unvisitedCount d v ≤ B →
      ∃ out v', expandListF recur t gs v = .ok (out, v') := by
  intro gs
  induction gs with
  | nil =>
    intro v _ _
    exact ⟨[], v, rfl⟩
  | cons g rest ih =>
    intro v hgu hB
    by_cases hmem : g ∈ v
    · obtain ⟨out, v', hout⟩ := ih v (fun x hx => hgu x (List.mem_cons_of_mem g hx)) hB
      exact ⟨out, v', by simp [expandListF, hmem, hout]⟩
    · have hBg : unvisitedCount d (g :: v) ≤ B :=
        le_trans (le_of_lt (unvisitedCount_cons_lt (hgu g (List.mem_cons_self g rest)) hmem)) hB
      cases t with
      | false =>
        obtain ⟨out, v3, hout⟩ :=
          ih (g :: v) (fun x hx => hgu x (List.mem_cons_of_mem g hx)) hBg
        exact ⟨g :: out, v3, by simp [expandListF, hmem, hout]⟩
      | true =>
        have hlt : unvisitedCount d (g :: v) < B :=
          lt_of_lt_of_le (unvisitedCount_cons_lt (hgu g (List.mem_cons_self g rest)) hmem) hB
        obtain ⟨tg, v2, htg⟩ := hok g (g :: v) hlt
        have hB2 : unvisitedCount d v2 ≤ B :=
          le_trans (unvisitedCount_le_of_subset
            (fun a ha => subset_after (hrec g (g :: v) tg v2 htg).1 (List.mem_cons_of_mem g ha))) hB
        obtain ⟨out, v3, hout⟩ :=
          ih v2 (fun x hx => hgu x (List.mem_cons_of_mem g hx)) hB2
        exact ⟨g :: (tg ++ out), v3, by simp [expandListF, hmem, htg, hout]⟩

theorem ok_pages {recur : String → Visited → ExpandRes} {t : Bool} {d : Directory}
    {email : String} {B : Nat} (hrec : GoodStep recur) (hfail : d.failures = [])
    (hok : ∀ e w, unvisitedCount d w < B → ∃ r w', recur e w = .ok (r, w')) :
    ∀ rem token v, (d.pagesOf email).length ≤ rem + token →
      unvisitedCount d v ≤ B →
      ∃ out v', expandPagesF recur t d email rem token v = .ok (out, v') := by
  intro rem
  induction rem with
  | zero =>
    intro token v hlen hB
    have hpage : ∀ g ∈ (d.pagesOf email).getD token [], g ∈ d.univFinset :=
      fun g hg => mem_univ_of_mem_groupsOf (mem_groupsOf_of_mem_page hg)
    obtain ⟨out, v1, hout⟩ :=
      @ok_list recur t d B hrec hok ((d.pagesOf email).getD token []) v hpage hB
    refine ⟨out, v1, ?_⟩
    rw [expandPagesF.eq_1, listGroups_of_no_failures hfail,
      if_neg (by omega : ¬ token + 1 < (d.pagesOf email).length)]
    simp only [List.getD_eq_getElem?_getD] at hout
    simp [hout]
  | succ rem' ih =>
    intro token v hlen hB
    have hpage : ∀ g ∈ (d.pagesOf email).getD token [], g ∈ d.univFinset :=
      fun g hg => mem_univ_of_mem_groupsOf (mem_groupsOf_of_mem_page hg)
    obtain ⟨out, v1, hout⟩ :=
      @ok_list recur t d B hrec hok ((d.pagesOf email).getD token []) v hpage hB
    have hB1 : unvisitedCount d v1 ≤ B := by
      obtain ⟨hv1, -, -⟩ := shape_list hrec _ v out v1 hout
      exact le_trans (unvisitedCount_le_of_subset (subset_after hv1)) hB
    by_cases hlt : token + 1 < (d.pagesOf email).length
    · obtain ⟨out2, v2, hout2⟩ := ih (token + 1) v1 (by omega) hB1
      refine ⟨out ++ out2, v2, ?_⟩
      rw [expandPagesF.eq_1, listGroups_of_no_failures hfail, if_pos hlt]
      simp only [List.getD_eq_getElem?_getD] at hout
      simp [hout, hout2]
    · refine ⟨out, v1, ?_⟩
      rw [expandPagesF.eq_1, listGroups_of_no_failures hfail, if_neg hlt]
      simp only [List.getD_eq_getElem?_getD] at hout
      simp [hout]

theorem ok_getGroups {d : Directory} {t : Bool} (hfail : d.failures = []) :
    ∀ fuel e v, unvisitedCount d v < fuel →
      ∃ out v', getGroups d t fuel e v = .ok (out, v') := by
  intro fuel
  induction fuel with
  | zero =>
    intro e v h
    exact absurd h (Nat.not_lt_zero _)
  | succ n ih =>
    intro e v h
    obtain ⟨out, v', hout⟩ := ok_pages (goodStep_getGroups d t n) hfail ih
      (d.pagesOf e).length 0 v
      (by omega : (d.pagesOf e).length ≤ (d.pagesOf e).length + 0) (by omega)
    exact ⟨out, v', by simp only [getGroups]; exact hout⟩

/-! Lemmas about the sequentialised worker fold of `getAllGroups`. -/

theorem runWorkers_ok {d : Directory} (hfail : d.failures = []) {fuel : Nat} :
    ∀ ws acc v, unvisitedCount d v < fuel →
      ∃ gs, runWorkers fuel d ws acc v = .ok gs := by
  intro ws
  induction ws with
  | nil =>
    intro acc v _
    exact ⟨acc, rfl⟩
  | cons s rest ih =>
    intro acc v h
    obtain ⟨out, v', hout⟩ := ok_getGroups hfail fuel s v h
    have hv' : unvisitedCount d v' < fuel :=
      lt_of_le_of_lt (unvisitedCount_le_of_subset
        (subset_after (goodStep_getGroups d true fuel s v out v' hout).1)) h
    obtain ⟨gs, hgs⟩ := ih (acc ++ (out ++ [s])) v' hv'
    exact ⟨gs, by simp [runWorkers, hout, hgs]⟩

theorem runWorkers_char {d : Directory} {fuel : Nat} :
    ∀ ws acc v gs, runWorkers fuel d ws acc v = .ok gs →
      (∀ m ∈ v, ∀ x ∈ d.groupsOf m, x ∈ v) →
      ∀ y, y ∈ gs ↔ y ∈ acc ∨ y ∈ ws ∨ (y ∉ v ∧ ∃ s ∈ ws, Reaches d s y) := by
  intro ws
  induction ws with
  | nil =>
    intro acc v gs h hcl y
    simp only [runWorkers, Except.ok.injEq] at h
    subst h
    simp
  | cons s rest ih =>
    intro acc v gs h hcl y
    cases hw : getGroups d true fuel s v with
    | error e =>
      simp [runWorkers, hw] at h
    | ok p =>
      obtain ⟨out, v'⟩ := p
      simp only [runWorkers, hw] at h
      have hcl' := worker_closed hw hcl
      have hiw := ih _ _ _ h hcl' y
      have hws := worker_set hw hcl y
      have hv' := (goodStep_getGroups d true fuel s v out v' hw).1
      rw [hiw]
      constructor
      · rintro (hacc | hrest | ⟨hnv', s', hs', hr⟩)
        · rcases List.mem_append.mp hacc with h1 | h2
          · exact Or.inl h1
          · rcases List.mem_append.mp h2 with hyo | hys
            · obtain ⟨hnv, hr⟩ := hws.mp hyo
              exact Or.inr (Or.inr ⟨hnv, s, List.mem_cons_self s rest, hr⟩)
            · rw [List.mem_singleton] at hys
              subst hys
              exact Or.inr (Or.inl (List.mem_cons_self y rest))
        · exact Or.inr (Or.inl (List.mem_cons_of_mem s hrest))
        · exact Or.inr (Or.inr ⟨fun hv => hnv' (subset_after hv' hv), s',
            List.mem_cons_of_mem s hs', hr⟩)
      · rintro (hacc | hsrest | ⟨hnv, s', hs', hr⟩)
        · exact Or.inl (List.mem_append.mpr (Or.inl hacc))
        · rcases List.mem_cons.mp hsrest with rfl | hrest
          · exact Or.inl (List.mem_append.mpr (Or.inr (List.mem_append.mpr
              (Or.inr (List.mem_singleton.mpr rfl)))))
          · exact Or.inr (Or.inl hrest)
        · rcases List.mem_cons.mp hs' with rfl | hs'rest
          · exact Or.inl (List.mem_append.mpr (Or.inr (List.mem_append.mpr
              (Or.inl (hws.mpr ⟨hnv, hr⟩)))))
          · by_cases hyo : y ∈ out
            · exact Or.inl (List.mem_append.mpr (Or.inr (List.mem_append.mpr
                (Or.inl hyo))))
            · refine Or.inr (Or.inr ⟨?_, s', hs'rest, hr⟩)
              intro hyv'
              rcases (mem_after_iff hv' y).mp hyv' with h1 | h2
              · exact hyo h1
              · exact hnv h2

theorem runWorkers_count {d : Directory} {fuel : Nat} :
    ∀ ws acc v gs, runWorkers fuel d ws acc v = .ok gs → ∀ g, g ∉ ws →
      gs.count g ≤ acc.count g + (if g ∈ v then 0 else 1) := by
  intro ws
  induction ws with
  | nil =>
    intro acc v gs h g hg
    simp only [runWorkers, Except.ok.injEq] at h
    subst h
    exact Nat.le_add_right _ _
  | cons s rest ih =>
    intro acc v gs h g hg
    have hgs : g ≠ s := fun he => hg (he ▸ List.mem_cons_self s rest)
    have hgrest : g ∉ rest := fun hr => hg (List.mem_cons_of_mem s hr)
    cases hw : getGroups d true fuel s v with
    | error e =>
      simp [runWorkers, hw] at h
    | ok p =>
      obtain ⟨out, v'⟩ := p
      simp only [runWorkers, hw] at h
      obtain ⟨hv', hnd, hfresh⟩ := goodStep_getGroups d true fuel s v out v' hw
      have hcount := ih _ _ _ h g hgrest
      have hacc' : (acc ++ (out ++ [s])).count g = acc.count g + out.count g := by
        simp [List.count_append, List.count_cons, hgs]
      by_cases hgv : g ∈ v
      · have hgv' : g ∈ v' := subset_after hv' hgv
        have hout0 : out.count g = 0 :=
          List.count_eq_zero_of_not_mem (fun ho => hfresh g ho hgv)
        rw [if_pos hgv]
        rw [hacc', hout0, if_pos hgv'] at hcount
        omega
      · rw [if_neg hgv]
        by_cases hgo : g ∈ out
        · have hgv' : g ∈ v' := mem_after hv' hgo
          have h1 : out.count g = 1 := List.count_eq_one_of_mem hnd hgo
          rw [hacc', h1, if_pos hgv'] at hcount
          omega
        · have hout0 : out.count g = 0 := List.count_eq_zero_of_not_mem hgo
          have hle : (if g ∈ v' then 0 else 1) ≤ 1 := by split <;> omega
          rw [hacc', hout0] at hcount
          omega

theorem runWorkers_ok_inv {d : Directory} {fuel : Nat} :
    ∀ ws acc v gs, runWorkers fuel d ws acc v = .ok gs →
      ∀ s ∈ ws, ∃ w out v', getGroups d true fuel s w = .ok (out, v') := by
  intro ws
  induction ws with
  | nil =>
    intro acc v gs h s hs
    exact absurd hs (List.not_mem_nil s)
  | cons s rest ih =>
    intro acc v gs h s0 hs0
    cases hw : getGroups d true fuel s v with
    | error e =>
      simp [runWorkers, hw] at h
    | ok p =>
      obtain ⟨out, v'⟩ := p
      simp only [runWorkers, hw] at h
      rcases List.mem_cons.mp hs0 with rfl | hrest
      · exact ⟨v, out, v', hw⟩
      · exact ih _ _ _ h s0 hrest

/-! Non-transitive mode: the recursive call is never taken. -/

theorem expandListF_recur_irrel (recur recur' : String → Visited → ExpandRes) :
    ∀ gs v, expandListF recur false gs v = expandListF recur' false gs v := by
  intro gs
  induction gs with
  | nil => intro v; rfl
  | cons g rest ih =>
    intro v
    by_cases hmem : g ∈ v
    · simp only [expandListF, if_pos hmem]
      exact ih v
    · simp only [expandListF, if_neg hmem, Bool.false_eq_true, if_false]
      rw [ih (g :: v)]

theorem expandPagesF_recur_irrel (recur recur' : String → Visited → ExpandRes)
    (d : Directory) (email : String) :
    ∀ rem token v, expandPagesF recur false d email rem token v =
      expandPagesF recur' false d email rem token v := by
  intro rem
  induction rem with
  | zero =>
    intro token v
    rw [expandPagesF.eq_1, expandPagesF.eq_1]
    cases hlg : d.listGroups email token with
    | error e => simp
    | ok p =>
      obtain ⟨page, next⟩ := p
      simp only
      rw [expandListF_recur_irrel recur recur' page v]
  | succ rem' ih =>
    intro token v
    rw [expandPagesF.eq_1, expandPagesF.eq_1]
    cases hlg : d.listGroups email token with
    | error e => simp
    | ok p =>
      obtain ⟨page, next⟩ := p
      simp only
      rw [expandListF_recur_irrel recur recur' page v]
      cases expandListF recur' false page v with
      | error e => simp
      | ok q =>
        obtain ⟨out, v1⟩ := q
        simp only
        by_cases hz : next = 0
        · simp [hz]
        · simp only [if_neg hz]
          rw [ih next v1]

theorem getGroups_nontrans_fuel_irrel (d : Directory) (email : String)
    (fuel fuel' : Nat) :
    ∀ v, getGroups d false (fuel + 1) email v = getGroups d false (fuel' + 1) email v := by
  intro v
  simp only [getGroups]
  exact expandPagesF_recur_irrel _ _ d email _ 0 v

theorem ok_nontrans_list {recur : String → Visited → ExpandRes} :
    ∀ gs v, ∃ out v', expandListF recur false gs v = .ok (out, v') := by
  intro gs
  induction gs with
  | nil =>
    intro v
    exact ⟨[], v, rfl⟩
  | cons g rest ih =>
    intro v
    by_cases hmem : g ∈ v
    · obtain ⟨out, v', hout⟩ := ih v
      exact ⟨out, v', by simp [expandListF, hmem, hout]⟩
    · obtain ⟨out, v', hout⟩ := ih (g :: v)
      exact ⟨g :: out, v', by simp [expandListF, hmem, hout]⟩

theorem ok_nontrans_pages {recur : String → Visited → ExpandRes} {d : Directory}
    {email : String} (hfail : d.failures = []) :
    ∀ rem token v, (d.pagesOf email).length ≤ rem + token →
      ∃ out v', expandPagesF recur false d email rem token v = .ok (out, v') := by
  intro rem
  induction rem with
  | zero =>
    intro token v hlen
    obtain ⟨out, v1, hout⟩ := @ok_nontrans_list recur ((d.pagesOf email).getD token []) v
    refine ⟨out, v1, ?_⟩
    rw [expandPagesF.eq_1, listGroups_of_no_failures hfail,
      if_neg (by omega : ¬ token + 1 < (d.pagesOf email).length)]
    simp only [List.getD_eq_getElem?_getD] at hout
    simp [hout]
  | succ rem' ih =>
    intro token v hlen
    obtain ⟨out, v1, hout⟩ := @ok_nontrans_list recur ((d.pagesOf email).getD token []) v
    by_cases hlt : token + 1 < (d.pagesOf email).length
    · obtain ⟨out2, v2, hout2⟩ := ih (token + 1) v1 (by omega)
      refine ⟨out ++ out2, v2, ?_⟩
      rw [expandPagesF.eq_1, listGroups_of_no_failures hfail, if_pos hlt]
      simp only [List.getD_eq_getElem?_getD] at hout
      simp [hout, hout2]
    · refine ⟨out, v1, ?_⟩
      rw [expandPagesF.eq_1, listGroups_of_no_failures hfail, if_neg hlt]
      simp only [List.getD_eq_getElem?_getD] at hout
      simp [hout]

theorem sound_nontrans_list {recur : String → Visited → ExpandRes} :
    ∀ gs v out v', expandListF recur false gs v = .ok (out, v') → ∀ a ∈ out, a ∈ gs := by
  intro gs
  induction gs with
  | nil =>
    intro v out v' h a ha
    simp only [expandListF, Except.ok.injEq, Prod.mk.injEq] at h
    obtain ⟨rfl, rfl⟩ := h
    exact absurd ha (List.not_mem_nil a)
  | cons g rest ih =>
    intro v out v' h a ha
    by_cases hmem : g ∈ v
    · simp only [expandListF, if_pos hmem] at h
      exact List.mem_cons_of_mem g (ih v out v' h a ha)
    · simp only [expandListF, if_neg hmem, Bool.false_eq_true, if_false] at h
      cases hres : expandListF recur false rest (g :: v) with
      | error e => rw [hres] at h; simp at h
      | ok q =>
        obtain ⟨outr, v3⟩ := q
        rw [hres] at h
        simp only [Except.ok.injEq, Prod.mk.injEq] at h
        obtain ⟨rfl, rfl⟩ := h
        rcases List.mem_cons.mp ha with rfl | ha'
        · exact List.mem_cons_self a rest
        · exact List.mem_cons_of_mem g (ih (g :: v) outr v3 hres a ha')

theorem sound_nontrans_pages {recur : String → Visited → ExpandRes} {d : Directory}
    {email : String} :
    ∀ rem token v out v', expandPagesF recur false d email rem token v = .ok (out, v') →
      ∀ a ∈ out, a ∈ flattenFrom (d.pagesOf email) token := by
  intro rem token v
  induction rem, token, v using expandPagesF.induct recur false d email with
  | case1 rem token v e herr =>
    intro out v' h
    rw [expandPagesF.eq_1, herr] at h
    simp at h
  | case2 rem token v page next hlg e herr =>
    intro out v' h
    rw [expandPagesF.eq_1] at h
    simp [hlg, herr] at h
  | case3 rem token v page outp v1 hlist hlg =>
    intro out v' h a ha
    rw [expandPagesF.eq_1] at h
    simp [hlg, hlist] at h
    obtain ⟨rfl, rfl⟩ := h
    obtain ⟨hp, hcase⟩ := listGroups_ok_inv hlg
    rcases hcase with ⟨-, hlen⟩ | ⟨hnx, -⟩
    · rw [flattenFrom_last hlen, ← hp]
      exact sound_nontrans_list page v _ _ hlist a ha
    · exact absurd hnx.symm (by omega)
  | case4 token v page next hlg outp v1 hlist hnz =>
    intro out v' h
    rw [expandPagesF.eq_1] at h
    simp [hlg, hlist, hnz] at h
  | case5 token v page next hlg outp v1 hlist hnz rem' e herr ih =>
    intro out v' h
    rw [expandPagesF.eq_1] at h
    simp [hlg, hlist, hnz, herr] at h
  | case6 token v page next hlg outp v1 hlist hnz rem' out2 v2 hrecur ih =>
    intro out v' h a ha
    rw [expandPagesF.eq_1] at h
    simp only [hlg, hlist, if_neg hnz, hrecur, Except.ok.injEq, Prod.mk.injEq] at h
    obtain ⟨rfl, rfl⟩ := h
    obtain ⟨hp, hcase⟩ := listGroups_ok_inv hlg
    rcases hcase with ⟨hz, -⟩ | ⟨hnx, hlt⟩
    · exact absurd hz hnz
    · subst hnx
      rw [flattenFrom_step hlt, ← hp]
      rcases List.mem_append.mp ha with hap | ha2
      · exact List.mem_append.mpr (Or.inl (sound_nontrans_list page v _ _ hlist a hap))
      · exact List.mem_append.mpr (Or.inr (ih _ _ hrecur a ha2))

theorem nontrans_char {d : Directory} (hfail : d.failures = []) (email : String)
    (fuel : Nat) :
    ∃ out v', getGroups d false (fuel + 1) email [] = .ok (out, v') ∧
      out.Nodup ∧ ∀ g, g ∈ out ↔ g ∈ d.groupsOf email := by
  obtain ⟨out, v', hout⟩ := ok_nontrans_pages hfail (d.pagesOf email).length 0 []
    (by omega : (d.pagesOf email).length ≤ (d.pagesOf email).length + 0)
  have hout' : getGroups d false (fuel + 1) email [] = .ok (out, v') := by
    simp only [getGroups]
    exact hout
  obtain ⟨hv', hnd, -⟩ :=
    shape_pages (goodStep_getGroups d false fuel) _ _ _ out v' hout
  refine ⟨out, v', hout', hnd, ?_⟩
  intro g
  constructor
  · intro hg
    have := sound_nontrans_pages _ _ _ out v' hout g hg
    rwa [flattenFrom_zero] at this
  · intro hg
    have hgv' : g ∈ v' := by
      refine cover_pages (goodStep_getGroups d false fuel) _ _ _ out v' hout g ?_
      rwa [flattenFrom_zero]
    rcases (mem_after_iff hv' g).mp hgv' with h1 | h2
    · exact h1
    · exact absurd h2 (List.not_mem_nil g)

/-! Bridging lemmas for the strategy-level theorems. -/

theorem reaches_head_iff {d : Directory} {root y : String} :
    Reaches d root y ↔ y ∈ d.groupsOf root ∨ ∃ b ∈ d.groupsOf root, Reaches d b y := by
  constructor
  · intro h
    cases h with
    | single hg => exact Or.inl hg
    | head hb hr => exact Or.inr ⟨_, hb, hr⟩
  · rintro (hg | ⟨b, hb, hr⟩)
    · exact Reaches.single hg
    · exact Reaches.head hb hr

theorem groupsOf_single_page {d : Directory} {root : String}
    (h : (d.pagesOf root).length ≤ 1) : d.groupsOf root = seedsOf d root := by
  unfold Directory.groupsOf seedsOf
  cases hps : d.pagesOf root with
  | nil => simp
  | cons p rest =>
    cases rest with
    | nil => simp
    | cons q r =>
      rw [hps] at h
      simp at h

theorem getGroups_root_char {d : Directory} {fuel : Nat} {root : String}
    {out : List String} {v' : Visited}
    (h : getGroups d true fuel root [] = .ok (out, v')) :
    ∀ y, y ∈ out ↔ Reaches d root y := by
  intro y
  have hw := worker_set h (fun m hm => absurd hm (List.not_mem_nil m)) y
  simpa using hw

theorem fails_false_of_listGroups_ok {d : Directory} {e : String} {t : Nat}
    {p : List String × Nat} (h : d.listGroups e t = .ok p) : d.fails e t = false := by
  by_cases hf : d.fails e t
  · simp [Directory.listGroups, hf] at h
  · simpa using hf

theorem sched_ok {d : Directory} (hfail : d.failures = []) (fuel : Nat)
    (root : String) (ws : List String) (hfuel : unvisitedCount d [] < fuel) :
    ∃ gs, getAllGroupsSched fuel d root ws = .ok gs := by
  obtain ⟨gs, hgs⟩ := runWorkers_ok hfail ws [] [] hfuel
  refine ⟨gs, ?_⟩
  simp only [getAllGroupsSched, listGroups_of_no_failures hfail]
  exact hgs

theorem sched_char {d : Directory} {fuel : Nat} {root : String} {ws : List String}
    {gs : List String} (h : getAllGroupsSched fuel d root ws = .ok gs) :
    ∀ y, y ∈ gs ↔ y ∈ ws ∨ ∃ s ∈ ws, Reaches d s y := by
  intro y
  simp only [getAllGroupsSched] at h
  split at h
  · exact absurd h (by simp)
  · have hc := runWorkers_char ws [] [] gs h
      (fun m hm => absurd hm (List.not_mem_nil m)) y
    simpa using hc

theorem sched_count {d : Directory} {fuel : Nat} {root : String} {ws : List String}
    {gs : List String} (h : getAllGroupsSched fuel d root ws = .ok gs)
    {g : String} (hg : g ∉ ws) : gs.count g ≤ 1 := by
  simp only [getAllGroupsSched] at h
  split at h
  · exact absurd h (by simp)
  · have hc := runWorkers_count ws [] [] gs h g hg
    simpa using hc

theorem sched_ok_inv {d : Directory} {fuel : Nat} {root : String} {ws : List String}
    {gs : List String} (h : getAllGroupsSched fuel d root ws = .ok gs) :
    d.fails root 0 = false ∧
      ∀ s ∈ ws, ∃ w out v', getGroups d true fuel s w = .ok (out, v') := by
  simp only [getAllGroupsSched] at h
  split at h
  · exact absurd h (by simp)
  · next p heq => exact ⟨fails_false_of_listGroups_ok heq, runWorkers_ok_inv ws [] [] gs h⟩

/-! Success inversion for the sequential expander: a result can only be `ok`
if every directory call the traversal issued succeeded — the entry call and
every further page of the expanded member, and, transitively, of every
member inserted into the output. -/

theorem pages_calls_ok {recur : String → Visited → ExpandRes} {t : Bool}
    {d : Directory} {email : String} :
    ∀ rem token v out v', expandPagesF recur t d email rem token v = .ok (out, v') →
      d.fails email token = false ∧
      ∀ tok, token < tok → tok < (d.pagesOf email).length → d.fails email tok = false := by
  intro rem token v
  induction rem, token, v using expandPagesF.induct recur t d email with
  | case1 rem token v e herr =>
    intro out v' h
    rw [expandPagesF.eq_1, herr] at h
    simp at h
  | case2 rem token v page next hlg e herr =>
    intro out v' h
    rw [expandPagesF.eq_1] at h
    simp [hlg, herr] at h
  | case3 rem token v page outp v1 hlist hlg =>
    intro out v' h
    refine ⟨fails_false_of_listGroups_ok hlg, ?_⟩
    intro tok htok hlen
    obtain ⟨-, hcase⟩ := listGroups_ok_inv hlg
    rcases hcase with ⟨-, hle⟩ | ⟨hnx, -⟩
    · omega
    · exact absurd hnx.symm (by omega)
  | case4 token v page next hlg outp v1 hlist hnz =>
    intro out v' h
    rw [expandPagesF.eq_1] at h
    simp [hlg, hlist, hnz] at h
  | case5 token v page next hlg outp v1 hlist hnz rem' e herr ih =>
    intro out v' h
    rw [expandPagesF.eq_1] at h
    simp [hlg, hlist, hnz, herr] at h
  | case6 token v page next hlg outp v1 hlist hnz rem' out2 v2 hrecur ih =>
    intro out v' h
    refine ⟨fails_false_of_listGroups_ok hlg, ?_⟩
    intro tok htok hlen
    obtain ⟨-, hcase⟩ := listGroups_ok_inv hlg
    rcases hcase with ⟨hz, -⟩ | ⟨hnx, hlt⟩
    · exact absurd hz hnz
    · subst hnx
      obtain ⟨h1, h2⟩ := ih _ _ hrecur
      rcases Nat.lt_or_ge (token + 1) tok with hgt | hle
      · exact h2 tok hgt hlen
      · have heq : tok = token + 1 := by omega
        subst heq
        exact h1

theorem getGroups_calls_ok {d : Directory} {t : Bool} :
    ∀ fuel e v out v', getGroups d t fuel e v = .ok (out, v') → CallsOk d e := by
  intro fuel
  cases fuel with
  | zero =>
    intro e v out v' h
    simp [getGroups] at h
  | succ n =>
    intro e v out v' h
    simp only [getGroups] at h
    obtain ⟨h0, hrest⟩ := pages_calls_ok _ _ _ out v' h
    refine ⟨h0, ?_⟩
    intro tok hlen
    rcases Nat.eq_zero_or_pos tok with rfl | hpos
    · exact h0
    · exact hrest tok hpos hlen

theorem callsOk_list {recur : String → Visited → ExpandRes} {d : Directory}
    (hrecCalls : ∀ e v out v', recur e v = .ok (out, v') →
      CallsOk d e ∧ ∀ m ∈ out, CallsOk d m) :
    ∀ gs v out v', expandListF recur true gs v = .ok (out, v') →
      ∀ m ∈ out, CallsOk d m := by
  intro gs v
  induction gs, v using expandListF.induct recur true with
  | case1 v =>
    intro out v' h m hm
    simp only [expandListF, Except.ok.injEq, Prod.mk.injEq] at h
    obtain ⟨rfl, rfl⟩ := h
    exact absurd hm (List.not_mem_nil m)
  | case2 g rest v hmem ih =>
    intro out v' h m hm
    simp only [expandListF, if_pos hmem] at h
    exact ih _ _ h m hm
  | case3 g rest v hnmem ht e herr =>
    intro out v' h
    simp [expandListF, hnmem, herr] at h
  | case4 g rest v hnmem ht tg v2 hok e herr ih =>
    intro out v' h
    simp [expandListF, hnmem, hok, herr] at h
  | case5 g rest v hnmem ht tg v2 hok outr v3 hokr ih =>
    intro out v' h m hm
    simp [expandListF, hnmem, hok, hokr] at h
    obtain ⟨rfl, rfl⟩ := h
    rcases List.mem_cons.mp hm with rfl | hm'
    · exact (hrecCalls m (m :: v) tg v2 hok).1
    · rcases List.mem_append.mp hm' with hmtg | hmout
      · exact (hrecCalls g (g :: v) tg v2 hok).2 m hmtg
      · exact ih _ _ hokr m hmout
  | case6 g rest v hnmem ht e herr ih =>
    exact absurd rfl ht
  | case7 g rest v hnmem ht outr v3 hokr ih =>
    exact absurd rfl ht

theorem callsOk_pages {recur : String → Visited → ExpandRes} {d : Directory}
    {email : String}
    (hrecCalls : ∀ e v out v', recur e v = .ok (out, v') →
      CallsOk d e ∧ ∀ m ∈ out, CallsOk d m) :
    ∀ rem token v out v', expandPagesF recur true d email rem token v = .ok (out, v') →
      ∀ m ∈ out, CallsOk d m := by
  intro rem token v
  induction rem, token, v using expandPagesF.induct recur true d email with
  | case1 rem token v e herr =>
    intro out v' h
    rw [expandPagesF.eq_1, herr] at h
    simp at h
  | case2 rem token v page next hlg e herr =>
    intro out v' h
    rw [expandPagesF.eq_1] at h
    simp [hlg, herr] at h
  | case3 rem token v page outp v1 hlist hlg =>
    intro out v' h m hm
    rw [expandPagesF.eq_1] at h
    simp [hlg, hlist] at h
    obtain ⟨rfl, rfl⟩ := h
    exact callsOk_list hrecCalls page v _ _ hlist m hm
  | case4 token v page next hlg outp v1 hlist hnz =>
    intro out v' h
    rw [expandPagesF.eq_1] at h
    simp [hlg, hlist, hnz] at h
  | case5 token v page next hlg outp v1 hlist hnz rem' e herr ih =>
    intro out v' h
    rw [expandPagesF.eq_1] at h
    simp [hlg, hlist, hnz, herr] at h
  | case6 token v page next hlg outp v1 hlist hnz rem' out2 v2 hrecur ih =>
    intro out v' h m hm
    rw [expandPagesF.eq_1] at h
    simp only [hlg, hlist, if_neg hnz, hrecur, Except.ok.injEq, Prod.mk.injEq] at h
    obtain ⟨rfl, rfl⟩ := h
    rcases List.mem_append.mp hm with hmp | hm2
    · exact callsOk_list hrecCalls page v _ _ hlist m hmp
    · exact ih _ _ hrecur m hm2

theorem getGroups_members_calls_ok {d : Directory} :
    ∀ fuel e v out v', getGroups d true fuel e v = .ok (out, v') →
      ∀ m ∈ out, CallsOk d m := by
  intro fuel
  induction fuel with
  | zero =>
    intro e v out v' h
    simp [getGroups] at h
  | succ n ih =>
    intro e v out v' h
    simp only [getGroups] at h
    exact callsOk_pages (fun e0 v0 out0 v0' h0 =>
      ⟨getGroups_calls_ok n e0 v0 out0 v0' h0, ih e0 v0 out0 v0' h0⟩) _ _ _ out v' h

/-! Claim theorems. -/

/-- C1: for every directed membership graph — cycles, self-loops and
multi-parent nodes included — with no failing directory call, the sequential
expansion `getGroups` with transitive resolution and a fresh visited set, run
at the provably sufficient fuel (so the Go recursion terminates), returns
exactly the set of group identifiers reachable from the root member key, each
appearing exactly once in its output. -/
theorem getGroups_transitive_complete (d : Directory) (root : String)
    (hfail : d.failures = []) :
    ∃ out v', getGroups d true (enoughFuel d) root [] = .ok (out, v') ∧
      out.Nodup ∧ ∀ g, g ∈ out ↔ Reaches d root g := by
  obtain ⟨out, v', hout⟩ := ok_getGroups hfail (enoughFuel d) root []
    (unvisitedCount_lt_enoughFuel d [])
  obtain ⟨-, hnd, -⟩ := goodStep_getGroups d true (enoughFuel d) root [] out v' hout
  exact ⟨out, v', hout, hnd, getGroups_root_char hout⟩

/-- Witness for C1 on a cyclic, self-looping, multi-parent graph. -/
theorem getGroups_transitive_complete_witness :
    dCycle.failures = [] ∧
    ∃ out v', getGroups dCycle true (enoughFuel dCycle) "root" [] = .ok (out, v') ∧
      out.Nodup ∧ ∀ g, g ∈ out ↔ Reaches dCycle "root" g :=
  ⟨rfl, getGroups_transitive_complete dCycle "root" rfl⟩

/-- C2 counterexample: with the root's direct groups split across two pages,
the sequential strategy returns {A, B} but the concurrent strategy returns
{A} only — the two strategies do not return the same set on every directory
state. -/
theorem getAllGroups_misses_second_page :
    getGroups dPages true 3 "root" [] = .ok (["A", "B"], ["B", "A"]) ∧
    getAllGroups 3 dPages "root" = .ok ["A"] ∧
    "B" ∈ (["A", "B"] : List String) ∧ "B" ∉ (["A"] : List String) :=
  ⟨rfl, rfl, by decide, by decide⟩

/-- C2 (amended): when the root's direct groups fit on a single page and no
directory call fails, the concurrent strategy — under every worker
schedule — and the sequential transitive strategy return the same set of
group identifiers (order may differ). -/
theorem getAllGroups_eq_getGroups_set (d : Directory) (root : String)
    (ws : List String) (hfail : d.failures = [])
    (hpage : (d.pagesOf root).length ≤ 1) (hws : ws.Perm (seedsOf d root)) :
    ∃ gs out v', getAllGroupsSched (enoughFuel d) d root ws = .ok gs ∧
      getGroups d true (enoughFuel d) root [] = .ok (out, v') ∧
      ∀ g, g ∈ gs ↔ g ∈ out := by
  obtain ⟨gs, hgs⟩ := sched_ok hfail _ root ws (unvisitedCount_lt_enoughFuel d [])
  obtain ⟨out, v', hout⟩ := ok_getGroups hfail (enoughFuel d) root []
    (unvisitedCount_lt_enoughFuel d [])
  refine ⟨gs, out, v', hgs, hout, ?_⟩
  intro g
  rw [sched_char hgs g, getGroups_root_char hout g, reaches_head_iff,
    groupsOf_single_page hpage]
  constructor
  · rintro (hseed | ⟨s, hs, hr⟩)
    · exact Or.inl (hws.mem_iff.mp hseed)
    · exact Or.inr ⟨s, hws.mem_iff.mp hs, hr⟩
  · rintro (hseed | ⟨b, hb, hr⟩)
    · exact Or.inl (hws.mem_iff.mpr hseed)
    · exact Or.inr ⟨b, hws.mem_iff.mpr hb, hr⟩

/-- Witness for the amended C2 on the diamond graph. -/
theorem getAllGroups_eq_getGroups_set_witness :
    dDiamond.failures = [] ∧ (dDiamond.pagesOf "root").length ≤ 1 ∧
    (["A", "B"] : List String).Perm (seedsOf dDiamond "root") ∧
    ∃ gs out v',
      getAllGroupsSched (enoughFuel dDiamond) dDiamond "root" ["A", "B"] = .ok gs ∧
      getGroups dDiamond true (enoughFuel dDiamond) "root" [] = .ok (out, v') ∧
      ∀ g, g ∈ gs ↔ g ∈ out :=
  ⟨rfl, by decide, by decide,
    getAllGroups_eq_getGroups_set dDiamond "root" ["A", "B"] rfl (by decide) (by decide)⟩

/-- C3 counterexample: seed B is also reachable through seed A's subtree;
the concurrent strategy emits B twice (once discovered inside A's worker,
once as worker B's unconditional seed append), so the returned sequence has
a duplicate. -/
theorem concurrent_duplicate_seed :
    getAllGroups 3 dSeedDup "root" = .ok ["B", "A", "B"] ∧
    ¬ (["B", "A", "B"] : List String).Nodup :=
  ⟨rfl, by decide⟩

/-- C3 (amended): the sequential strategy's output never contains
duplicates; in the concurrent strategy every group that is not a fan-out
seed appears at most once — and exactly once when it is reachable from some
seed — while a group that is itself a seed and also reachable through
another seed's subtree may appear twice. -/
theorem resolver_duplicate_policy :
    (∀ (d : Directory) (t : Bool) (fuel : Nat) (e : String) (v : Visited)
        (out : List String) (v' : Visited),
        getGroups d t fuel e v = .ok (out, v') → out.Nodup) ∧
    (∀ (fuel : Nat) (d : Directory) (root : String) (ws gs : List String)
        (g : String),
        getAllGroupsSched fuel d root ws = .ok gs → g ∉ ws → gs.count g ≤ 1) ∧
    (∀ (fuel : Nat) (d : Directory) (root : String) (ws gs : List String)
        (g : String),
        getAllGroupsSched fuel d root ws = .ok gs → g ∉ ws →
        (∃ s ∈ ws, Reaches d s g) → gs.count g = 1) := by
  refine ⟨?_, ?_, ?_⟩
  · intro d t fuel e v out v' h
    exact (goodStep_getGroups d t fuel e v out v' h).2.1
  · intro fuel d root ws gs g h hg
    exact sched_count h hg
  · intro fuel d root ws gs g h hg hreach
    have hle := sched_count h hg
    have hmem : g ∈ gs := (sched_char h g).mpr (Or.inr hreach)
    have hpos : 0 < gs.count g := List.count_pos_iff.mpr hmem
    omega

/-- Witness for the amended C3: in the diamond, C is reachable from both
seeds and appears exactly once. -/
theorem resolver_duplicate_policy_witness :
    (["C", "A", "B"] : List String).count "C" = 1 :=
  resolver_duplicate_policy.2.2 3 dDiamond "root" ["A", "B"] ["C", "A", "B"] "C"
    rfl (by decide) ⟨"A", by decide, Reaches.single (by decide)⟩

/-- C4 counterexample: B is among the root's direct groups (on the second
page) but is not a fan-out seed and is absent from the concurrent result —
the first step is not paginated. -/
theorem fanout_seeds_first_page_only :
    dPages.groupsOf "root" = ["A", "B"] ∧ seedsOf dPages "root" = ["A"] ∧
    getAllGroups 3 dPages "root" = .ok ["A"] ∧ "B" ∉ (["A"] : List String) :=
  ⟨rfl, rfl, rfl, by decide⟩

/-- C4 (amended): the concurrent strategy's first step is one single,
non-paginated, non-transitive list call with no visited-set check, so
exactly the first page of the root's direct groups become the fan-out
seeds; every first-page group is a seed and appears in the result. -/
theorem fanout_seeds (d : Directory) (root : String) (ws : List String)
    (hfail : d.failures = []) (hws : ws.Perm (seedsOf d root)) :
    seedsOf d root = (d.pagesOf root).getD 0 [] ∧
    ∃ gs, getAllGroupsSched (enoughFuel d) d root ws = .ok gs ∧
      ∀ g ∈ seedsOf d root, g ∈ gs := by
  refine ⟨rfl, ?_⟩
  obtain ⟨gs, hgs⟩ := sched_ok hfail _ root ws (unvisitedCount_lt_enoughFuel d [])
  exact ⟨gs, hgs, fun g hg => (sched_char hgs g).mpr (Or.inl (hws.mem_iff.mpr hg))⟩

/-- Witness for the amended C4. -/
theorem fanout_seeds_witness :
    dPages.failures = [] ∧ (["A"] : List String).Perm (seedsOf dPages "root") ∧
    (seedsOf dPages "root" = (dPages.pagesOf "root").getD 0 [] ∧
     ∃ gs, getAllGroupsSched (enoughFuel dPages) dPages "root" ["A"] = .ok gs ∧
       ∀ g ∈ seedsOf dPages "root", g ∈ gs) :=
  ⟨rfl, by decide, fanout_seeds dPages "root" ["A"] rfl (by decide)⟩

/-- C5: for every member whose groups are split across any number of pages
(empty intermediate pages with continuing tokens included — only an empty
returned token ends the loop), the non-transitive expansion succeeds and
returns exactly the union of all pages. -/
theorem getGroups_pagination_union (d : Directory) (email : String)
    (hfail : d.failures = []) :
    ∃ out v', getGroups d false 1 email [] = .ok (out, v') ∧ out.Nodup ∧
      ∀ g, g ∈ out ↔ g ∈ d.groupsOf email :=
  nontrans_char hfail email 0

/-- Witness for C5 on a member with three pages, the middle one empty. -/
theorem getGroups_pagination_union_witness :
    dMid.failures = [] ∧
    ∃ out v', getGroups dMid false 1 "m" [] = .ok (out, v') ∧ out.Nodup ∧
      ∀ g, g ∈ out ↔ g ∈ dMid.groupsOf "m" :=
  ⟨rfl, getGroups_pagination_union dMid "m" rfl⟩

/-- C6: a failing directory call aborts the whole resolution with that error
and no result, in either strategy.  Sequentially: the expander errors when
the first call fails, and — the success inversion — an `ok` result is only
possible when every call issued succeeded: every page of the expanded member
and, transitively, every page of every member that entered the output, so no
mid-pagination or nested-recursion failure can be swallowed into a partial
result; concretely, a second-page failure after page one already discovered
a group, and a nested-recursion failure after the root page discovered a
group, both return only the error.  Concurrently: the strategy errors when
its root call fails, a successful resolution implies the root call and every
worker's expansion succeeded, and on the concrete state where worker A has
already discovered G1 but worker B's call fails, everything discovered is
discarded and only the error is returned. -/
theorem resolution_error_propagation :
    (∀ (d : Directory) (t : Bool) (fuel : Nat) (root : String) (v : Visited),
        d.fails root 0 = true → getGroups d t (fuel + 1) root v = .error .dirFailed) ∧
    (∀ (d : Directory) (t : Bool) (fuel : Nat) (e : String) (v : Visited)
        (out : List String) (v' : Visited),
        getGroups d t fuel e v = .ok (out, v') →
          CallsOk d e ∧ (t = true → ∀ m ∈ out, CallsOk d m)) ∧
    getGroups dFailSeq true 3 "root" [] = .error .dirFailed ∧
    getGroups dFailNested true 3 "root" [] = .error .dirFailed ∧
    (∀ (fuel : Nat) (d : Directory) (root : String) (ws : List String),
        d.fails root 0 = true → getAllGroupsSched fuel d root ws = .error .dirFailed) ∧
    (∀ (fuel : Nat) (d : Directory) (root : String) (ws gs : List String),
        getAllGroupsSched fuel d root ws = .ok gs →
          d.fails root 0 = false ∧
          ∀ s ∈ ws, ∃ w out v', getGroups d true fuel s w = .ok (out, v')) ∧
    getAllGroups 3 dFailB "root" = .error .dirFailed := by
  refine ⟨?_, ?_, rfl, rfl, ?_, ?_, rfl⟩
  · intro d t fuel root v hf
    simp only [getGroups]
    rw [expandPagesF.eq_1]
    simp [Directory.listGroups, hf]
  · intro d t fuel e v out v' h
    refine ⟨getGroups_calls_ok fuel e v out v' h, ?_⟩
    intro ht
    subst ht
    exact getGroups_members_calls_ok fuel e v out v' h
  · intro fuel d root ws hf
    simp [getAllGroupsSched, Directory.listGroups, hf]
  · intro fuel d root ws gs h
    exact sched_ok_inv h

/-- Witness for C6: the sequential expander propagates the failure of the
very first call, and the success inversion applied to a concrete successful
two-page run yields that all its calls succeeded. -/
theorem resolution_error_propagation_witness :
    getGroups dFail true 1 "r" [] = .error .dirFailed ∧
    (CallsOk dPages "root" ∧
      (true = true → ∀ m ∈ (["A", "B"] : List String), CallsOk dPages m)) :=
  ⟨resolution_error_propagation.1 dFail true 0 "r" [] rfl,
   resolution_error_propagation.2.1 dPages true 3 "root" [] ["A", "B"] ["B", "A"] rfl⟩

/-- C7: with a non-empty allow-list and a successful resolution, the final
result is the intersection of the resolved groups with the allow-list, and
the not-authorized error is returned exactly when that intersection is
empty. -/
theorem allowlist_filtering (t : Bool) (allow : List String) (fuel : Nat)
    (d : Directory) (email : String) (gs : List String)
    (hne : allow ≠ []) (hres : resolveGroups t fuel d email = .ok gs) :
    (createIdentityGroups true true t allow fuel d email = .error .notAuthorized ↔
      groupsFilter gs allow = []) ∧
    (groupsFilter gs allow ≠ [] →
      createIdentityGroups true true t allow fuel d email = .ok (groupsFilter gs allow)) := by
  have hlen : 0 < allow.length := List.length_pos.mpr hne
  have hCI : createIdentityGroups true true t allow fuel d email =
      (if (groupsFilter gs allow).length = 0 then .error .notAuthorized
       else .ok (groupsFilter gs allow)) := by
    simp [createIdentityGroups, hres, hlen]
  refine ⟨?_, ?_⟩
  · rw [hCI]
    by_cases hf : (groupsFilter gs allow).length = 0
    · rw [if_pos hf]
      simp [List.length_eq_zero.mp hf]
    · rw [if_neg hf]
      constructor
      · intro h
        exact absurd h (by simp)
      · intro h
        exact absurd (List.length_eq_zero.mpr h) hf
  · intro h
    rw [hCI, if_neg (fun hz => h (List.length_eq_zero.mp hz))]

/-- Witness for C7 on the two allow-list scenarios of the spec. -/
theorem allowlist_filtering_witness :
    createIdentityGroups true true false ["B", "D"] 1 dABC "root" = .ok ["B"] ∧
    createIdentityGroups true true false ["B", "D"] 1 dAC "root" = .error .notAuthorized := by
  constructor
  · exact (allowlist_filtering false ["B", "D"] 1 dABC "root" ["A", "B", "C"]
      (by decide) rfl).2 (by decide)
  · exact (allowlist_filtering false ["B", "D"] 1 dAC "root" ["A", "C"]
      (by decide) rfl).1.mpr (by decide)

/-- C8 counterexample: in direct-only mode the facade's expansion returns the
groups of both pages (so more than one client call is made: the single call
yields only page one) and deduplicates across pages through the fresh visited
set (dDup lists A on two pages, yet A appears once). -/
theorem direct_mode_counterexample :
    dPages.listGroups "root" 0 = .ok (["A"], 1) ∧
    getGroups dPages false 1 "root" [] = .ok (["A", "B"], ["B", "A"]) ∧
    (["A", "B"] : List String) ≠ ["A"] ∧
    dDup.groupsOf "root" = ["A", "A"] ∧
    getGroups dDup false 1 "root" [] = .ok (["A"], ["A"]) ∧
    (["A"] : List String) ≠ ["A", "A"] :=
  ⟨rfl, rfl, by decide, rfl, rfl, by decide⟩

/-- C8 (amended): in direct-membership-only mode the facade runs `getGroups`
with transitive resolution disabled: no recursion happens (the result does
not depend on the recursion fuel), the directory client is called once per
page of the member's direct groups, and a fresh visited set deduplicates
within this single-level expansion. -/
theorem direct_mode (d : Directory) (email : String) (fuel fuel' : Nat)
    (hfail : d.failures = []) :
    getGroups d false (fuel + 1) email [] = getGroups d false (fuel' + 1) email [] ∧
    ∃ out v', getGroups d false (fuel + 1) email [] = .ok (out, v') ∧ out.Nodup ∧
      ∀ g, g ∈ out ↔ g ∈ d.groupsOf email :=
  ⟨getGroups_nontrans_fuel_irrel d email fuel fuel' [],
   nontrans_char hfail email fuel⟩

/-- Witness for the amended C8. -/
theorem direct_mode_witness :
    dDup.failures = [] ∧
    (getGroups dDup false 5 "root" [] = getGroups dDup false 9 "root" [] ∧
     ∃ out v', getGroups dDup false 5 "root" [] = .ok (out, v') ∧ out.Nodup ∧
       ∀ g, g ∈ out ↔ g ∈ dDup.groupsOf "root") :=
  ⟨rfl, direct_mode dDup "root" 4 8 rfl⟩

/-- C10: group resolution happens only when the caller requested the groups
scope and a directory service client was configured; otherwise the identity
carries an empty group list and no error, even when transitive resolution
and a non-empty allow-list are configured. -/
theorem groups_scope_gate (sG hA t : Bool) (allow : List String) (fuel : Nat)
    (d : Directory) (email : String) (h : sG = false ∨ hA = false) :
    createIdentityGroups sG hA t allow fuel d email = .ok [] := by
  rcases h with rfl | rfl
  · simp [createIdentityGroups]
  · simp [createIdentityGroups]

/-- Witness for C10 with transitive resolution and an allow-list configured,
and a directory whose first call would fail. -/
theorem groups_scope_gate_witness :
    createIdentityGroups false true true ["X"] 0 dFail "r" = .ok [] ∧
    createIdentityGroups true false true ["X"] 0 dFail "r" = .ok [] :=
  ⟨groups_scope_gate false true true ["X"] 0 dFail "r" (Or.inl rfl),
   groups_scope_gate true false true ["X"] 0 dFail "r" (Or.inr rfl)⟩

end DexGoogle
